import Mathlib

/-!
Shallow embedding of the row/slice/lane state kernel of KeccakTools
(`Sources/Keccak-fParts.h`).  `RowValue` is an 8-bit byte holding 5
meaningful bits, `SliceValue` a 32-bit word holding 25 bits (5 rows of
5 bits), `LaneValue` a 64-bit word, `PackedParities` a 64-bit word
holding up to 12 packed 5-bit parities.  Machine words are embedded as
`Nat` with explicit `% 2 ^ w` where the source can overflow its word.
States are embedded as `List Nat` (vector of slices, or vector of 25
lanes indexed by `5*y + x`).
-/

namespace KeccakFParts

/-- Number of rows and columns in Keccak-f (`nrRowsAndColumns`). -/
def nrRowsAndColumns : Nat := 5

/-- Maximum slice value (`maxSliceValue`): a slice has 25 meaningful bits. -/
def maxSliceValue : Nat := 0x1FFFFFF

/-- Embedding of `getSliceFromRow`: `(SliceValue)row << (5*y)` computed in the
32-bit `SliceValue` type. -/
def getSliceFromRow (row y : Nat) : Nat := (row <<< (5 * y)) % 2 ^ 32

/-- Embedding of `getRowFromSlice`: `(slice >> (5*y)) & 0x1F`. -/
def getRowFromSlice (slice y : Nat) : Nat := (slice >>> (5 * y)) &&& 0x1F

/-- Embedding of `translateRow`: `if dx == 0 return row; else
((row << dx) | (row >> (5-dx))) & 0x1F`.  The shifts happen after integer
promotion, so no 8-bit truncation occurs before the final mask. -/
def translateRow (row dx : Nat) : Nat :=
  if dx = 0 then row else ((row <<< dx) ||| (row >>> (5 - dx))) &&& 0x1F

/-- Embedding of `getParitiesFromParity`: `(PackedParities)parity << (5*z)`
computed in the 64-bit `PackedParities` type. -/
def getParitiesFromParity (parity z : Nat) : Nat := (parity <<< (5 * z)) % 2 ^ 64

/-- Embedding of `getParityFromParities`: `(parities >> (5*z)) & 0x1F`. -/
def getParityFromParities (parities z : Nat) : Nat := (parities >>> (5 * z)) &&& 0x1F

/-- Specification-side definition of the cyclic left rotation of a 5-bit row
field by `dx` positions: bit `i` of the result is bit `(i - dx) mod 5` of the
input, for `i < 5`. -/
def rotLeft5 (row dx : Nat) : Nat :=
  (List.range 5).foldr
    (fun i acc => ((row.testBit ((i + 5 - dx) % 5)).toNat <<< i) ||| acc) 0

/-- Modelled from the spec: the body of `translateRowSafely` is not under
`src/` (only its declaration is).  The spec says it normalizes `dx` into
`[0,5)` via `((dx % 5) + 5) % 5` and then delegates to `translateRow`. -/
def translateRowSafely (row : Nat) (dx : Int) : Nat :=
  translateRow row ((dx % 5 + 5) % 5).toNat

/-- Modelled from the spec: the body of `getSliceValue` is not under `src/`
(only its declaration is).  The spec says it embeds the five rows with the
row codec and bitwise-ORs them together. -/
def getSliceValue (row0 row1 row2 row3 row4 : Nat) : Nat :=
  getSliceFromRow row0 0 ||| getSliceFromRow row1 1 ||| getSliceFromRow row2 2 |||
    getSliceFromRow row3 3 ||| getSliceFromRow row4 4

/-- Modelled from the spec: the body of `getParity` is not under `src/` (only
its declaration is).  The spec says the parity of a slice is the XOR of the
five extracted rows. -/
def getParity (slice : Nat) : Nat :=
  getRowFromSlice slice 0 ^^^ getRowFromSlice slice 1 ^^^ getRowFromSlice slice 2 ^^^
    getRowFromSlice slice 3 ^^^ getRowFromSlice slice 4

/-- Modelled from the spec: the body of `getNrActiveRows` (slice overload) is
not under `src/` (only its declaration is).  The spec says it counts the
`y ∈ [0,5)` for which the extracted row is non-zero. -/
def getNrActiveRows (slice : Nat) : Nat :=
  (List.range 5).foldl (fun acc y => if getRowFromSlice slice y ≠ 0 then acc + 1 else acc) 0

/-- Modelled from the spec: the body of `translateStateAlongZ` is not under
`src/` (only its declaration is).  The spec says it cyclically permutes the
slices, the slice previously at index `i` moving to index `(i + dz) mod w`,
accepting any signed `dz` and normalizing modulo the state length `w`; so the
result holds at index `i` the slice previously at `(i - dz) mod w`. -/
def translateStateAlongZ (state : List Nat) (dz : Int) : List Nat :=
  (List.range state.length).map
    (fun (i : Nat) => state.getD ((((i : Nat) : Int) - dz) % (state.length : Int)).toNat 0)

/-- Modelled from the spec: the body of the slice-based `getRow` is not under
`src/` (only its declaration is).  The spec says it extracts row `y` of
`state[z]` with the row codec. -/
def getRow_slices (slices : List Nat) (y z : Nat) : Nat :=
  getRowFromSlice (slices.getD z 0) y

/-- Modelled from the spec: the body of the slice-based `setRow` is not under
`src/` (only its declaration is).  The spec says it clears bits `[5y, 5y+5)`
of the 32-bit word `state[z]` and then ORs in the embedded row. -/
def setRow_slices (slices : List Nat) (row y z : Nat) : List Nat :=
  slices.set z
    (((slices.getD z 0) &&& (0xFFFFFFFF ^^^ getSliceFromRow 0x1F y)) ||| getSliceFromRow row y)

/-- Helper for the lane-based scatter: set bit `z` of `v` to `b`, leaving all
other bits untouched. -/
def setBitTo (v z : Nat) (b : Bool) : Nat :=
  (b.toNat <<< z) ||| (((v >>> (z + 1)) <<< (z + 1)) ||| (v &&& ((1 <<< z) - 1)))

/-- Modelled from the spec: the body of the lane-based `getRow` is not under
`src/` (only its declaration is).  The spec says the row at `(y,z)` is
gathered from bit `z` of lane `(x,y)` (lane index `5*y + x`) for `x = 0..4`. -/
def getRow_lanes (lanes : List Nat) (y z : Nat) : Nat :=
  (List.range 5).foldr
    (fun x acc => (((lanes.getD (5 * y + x) 0).testBit z).toNat <<< x) ||| acc) 0

/-- Modelled from the spec: the body of the lane-based `setRow` is not under
`src/` (only its declaration is).  The spec says it scatters bit `x` of the
given row into bit `z` of lane `(x,y)` (index `5*y + x`) for each `x`,
leaving all other bits of those lanes and all other lanes untouched. -/
def setRow_lanes (lanes : List Nat) (row y z : Nat) : List Nat :=
  (List.range lanes.length).map
    (fun (j : Nat) =>
      if j / 5 = y then setBitTo (lanes.getD j 0) z (row.testBit (j % 5))
      else lanes.getD j 0)

/-- Modelled from the spec: the body of `getSlice` is not under `src/` (only
its declaration is).  The spec says slice `z` is assembled by gathering the
row at `(y,z)` from the lanes for each `y` and embedding it with the row
codec. -/
def getSlice (lanes : List Nat) (z : Nat) : Nat :=
  (List.range 5).foldr (fun y acc => getSliceFromRow (getRow_lanes lanes y z) y ||| acc) 0

/-- Modelled from the spec: the body of `fromLanesToSlices` is not under
`src/` (only its declaration is).  The spec says the destination receives,
for each `z` in `[0, laneSize)`, the slice gathered from the lanes at `z`. -/
def fromLanesToSlices (lanes : List Nat) (laneSize : Nat) : List Nat :=
  (List.range laneSize).map (fun z => getSlice lanes z)

/-- Modelled from the spec: the body of `fromSlicesToLanes` is not under
`src/` (only its declaration is).  The spec says the 25 lanes are rebuilt
from zero by extracting, for each `z` and `y`, row `y` of `slices[z]` and
scattering bit `x` of it into bit `z` of lane `5*y + x`; equivalently, lane
`j` collects bit `j % 5` of row `j / 5` of `slices[z]` at bit position `z`. -/
def fromSlicesToLanes (slices : List Nat) : List Nat :=
  (List.range 25).map
    (fun (j : Nat) =>
      (List.range slices.length).foldr
        (fun z acc =>
          (((getRowFromSlice (slices.getD z 0) (j / 5)).testBit (j % 5)).toNat <<< z) ||| acc)
        0)

/- ------------------------------------------------------------------ -/
/- Bit-level helper lemmas                                            -/
/- ------------------------------------------------------------------ -/

/-- Helper: a value below 32 has no bit at or above position 5. -/
theorem testBit_of_lt_32 (r k : Nat) (hr : r < 32) (hk : 5 ≤ k) : r.testBit k = false :=
  Nat.testBit_lt_two_pow (lt_of_lt_of_le hr (by
    calc (32 : Nat) = 2 ^ 5 := by norm_num
      _ ≤ 2 ^ k := Nat.pow_le_pow_right (by norm_num) hk))

/-- Helper: bits of an extracted row in terms of the bits of its slice. -/
theorem testBit_getRowFromSlice (s y k : Nat) :
    (getRowFromSlice s y).testBit k = (decide (k < 5) && s.testBit (5 * y + k)) := by
  have h31 : ∀ m, Nat.testBit 0x1F m = decide (m < 5) := by
    intro m
    have h := Nat.testBit_two_pow_sub_one 5 m
    norm_num at h
    exact h
  simp only [getRowFromSlice, Nat.testBit_and, Nat.testBit_shiftRight, h31]
  exact Bool.and_comm _ _

/-- Helper: bits of an embedded row in terms of the bits of the row. -/
theorem testBit_getSliceFromRow (row y k : Nat) :
    (getSliceFromRow row y).testBit k =
      (decide (k < 32) && (decide (5 * y ≤ k) && row.testBit (k - 5 * y))) := by
  simp only [getSliceFromRow, Nat.testBit_mod_two_pow, Nat.testBit_shiftLeft, ge_iff_le]

/-- Helper: row extraction distributes over bitwise OR of slices. -/
theorem getRowFromSlice_or (a b y : Nat) :
    getRowFromSlice (a ||| b) y = getRowFromSlice a y ||| getRowFromSlice b y := by
  apply Nat.eq_of_testBit_eq; intro k
  simp only [testBit_getRowFromSlice, Nat.testBit_or]
  cases decide (k < 5) <;> simp

/-- Helper: extracting row `yy` from a slice holding only an embedded row at
`y` yields the row when `yy = y` and zero otherwise. -/
theorem getRowFromSlice_getSliceFromRow (r y yy : Nat) (hr : r < 32) (hy : y < 5)
    (hyy : yy < 5) :
    getRowFromSlice (getSliceFromRow r y) yy = if yy = y then r else 0 := by
  apply Nat.eq_of_testBit_eq; intro k
  by_cases hk : k < 5
  · simp only [testBit_getRowFromSlice, testBit_getSliceFromRow]
    by_cases he : yy = y
    · subst he
      have c1 : 5 * yy + k < 32 := by omega
      have c2 : 5 * yy ≤ 5 * yy + k := by omega
      have c3 : 5 * yy + k - 5 * yy = k := by omega
      simp [hk, c1, c2, c3]
    · rcases Nat.lt_or_ge yy y with hlt | hge
      · have hno : ¬ (5 * y ≤ 5 * yy + k) := by omega
        simp [he, hno]
      · have hgt : y < yy := by omega
        have h5 : 5 ≤ 5 * yy + k - 5 * y := by omega
        simp [he, testBit_of_lt_32 r _ hr h5]
  · simp only [testBit_getRowFromSlice, hk, decide_False, Bool.false_and]
    by_cases he : yy = y
    · simp [he, testBit_of_lt_32 r k hr (by omega)]
    · simp [he]

/-- Helper: testBit of a right fold of bitwise ORs is the disjunction of the
individual testBits. -/
theorem testBit_foldr_or (L : List Nat) (g : Nat → Nat) (k : Nat) :
    ((L.foldr (fun x acc => g x ||| acc) 0).testBit k) = L.any (fun x => (g x).testBit k) := by
  induction L with
  | nil => simp
  | cons a l ih => simp [Nat.testBit_or, ih]

/-- Helper: bits of a shifted bit indicator. -/
theorem testBit_toNat_shiftLeft (b : Bool) (n k : Nat) :
    ((b.toNat <<< n).testBit k) = (b && decide (k = n)) := by
  cases b with
  | false => simp [Nat.shiftLeft_eq]
  | true =>
    have h1 : (true.toNat <<< n) = 2 ^ n := by simp [Nat.shiftLeft_eq]
    rw [h1, Nat.testBit_two_pow]
    simp [eq_comm]

/-- Helper: bits of the 32-bit all-ones mask. -/
theorem testBit_mask32 (m : Nat) : Nat.testBit 0xFFFFFFFF m = decide (m < 32) := by
  have h := Nat.testBit_two_pow_sub_one 32 m
  norm_num at h
  exact h

/-- Helper: bits of a value masked to its low 5 bits. -/
theorem testBit_and_31 (row k : Nat) :
    (row &&& 0x1F).testBit k = (decide (k < 5) && row.testBit k) := by
  have h31 : ∀ m, Nat.testBit 0x1F m = decide (m < 5) := by
    intro m
    have h := Nat.testBit_two_pow_sub_one 5 m
    norm_num at h
    exact h
  simp only [Nat.testBit_and, h31]
  exact Bool.and_comm _ _

/-- Helper: `setBitTo` sets exactly bit `z` and preserves every other bit. -/
theorem testBit_setBitTo (v z : Nat) (b : Bool) (k : Nat) :
    (setBitTo v z b).testBit k = if k = z then b else v.testBit k := by
  simp only [setBitTo, Nat.testBit_or, testBit_toNat_shiftLeft, Nat.testBit_shiftLeft,
    Nat.testBit_shiftRight, Nat.testBit_and, Nat.one_shiftLeft,
    Nat.testBit_two_pow_sub_one, ge_iff_le]
  by_cases hk : k = z
  · subst hk
    have h1 : ¬ (k + 1 ≤ k) := by omega
    have h2 : ¬ (k < k) := by omega
    simp only [h1, h2]
    cases b <;> simp
  · rcases Nat.lt_or_ge k z with hlt | hge
    · have h1 : ¬ (z + 1 ≤ k) := by omega
      simp [hk, h1, hlt]
    · have h1 : z + 1 ≤ k := by omega
      have h2 : z + 1 + (k - (z + 1)) = k := by omega
      have h3 : ¬ (k < z) := by omega
      have hb : b.toNat.testBit (k - z) = false := by
        apply Nat.testBit_lt_two_pow
        have hb1 : b.toNat ≤ 1 := Bool.toNat_le b
        have hb2 : (2 : Nat) ≤ 2 ^ (k - z) := by
          calc (2 : Nat) = 2 ^ 1 := by norm_num
            _ ≤ 2 ^ (k - z) := Nat.pow_le_pow_right (by norm_num) (by omega)
        omega
      simp [hk, h1, h2, h3, hb]

/-- Helper: `getD` of a map over a range. -/
theorem getD_map_range (n : Nat) (f : Nat → Nat) (j : Nat) (hj : j < n) :
    ((List.range n).map f).getD j 0 = f j := by
  rw [List.getD_eq_getElem _ _ (by simpa using hj)]
  simp

/-- Helper: bits of the 5-bit all-ones mask. -/
theorem testBit_31 (m : Nat) : Nat.testBit 0x1F m = decide (m < 5) := by
  have h := Nat.testBit_two_pow_sub_one 5 m
  norm_num at h
  exact h

/-- Helper: `getD` after `set` at the written index. -/
theorem getD_set_self (l : List Nat) (n a : Nat) (h : n < l.length) :
    (l.set n a).getD n 0 = a := by
  rw [List.getD_eq_getElem _ _ (by simpa using h)]
  simp

/-- Helper: `getD` after `set` at a different index. -/
theorem getD_set_ne (l : List Nat) (n m a : Nat) (hnm : n ≠ m) :
    (l.set n a).getD m 0 = l.getD m 0 := by
  simp [List.getD_eq_getElem?_getD, List.getElem?_set_ne hnm]

/-- Helper: bits of the lane-based row gather: bit `k < 5` of the gathered row
is bit `z` of lane `5*y + k`. -/
theorem testBit_getRow_lanes (lanes : List Nat) (y z k : Nat) :
    (getRow_lanes lanes y z).testBit k =
      (decide (k < 5) && (lanes.getD (5 * y + k) 0).testBit z) := by
  rw [getRow_lanes, testBit_foldr_or]
  simp only [testBit_toNat_shiftLeft]
  by_cases hk : k < 5
  · rw [Bool.eq_iff_iff]
    simp only [List.any_eq_true, List.mem_range, Bool.and_eq_true, decide_eq_true_eq]
    constructor
    · rintro ⟨x, hx5, hb, hkx⟩
      subst hkx
      exact ⟨hk, hb⟩
    · rintro ⟨_, hb⟩
      exact ⟨k, hk, hb, rfl⟩
  · rw [Bool.eq_iff_iff]
    simp only [List.any_eq_true, List.mem_range, Bool.and_eq_true, decide_eq_true_eq]
    constructor
    · rintro ⟨x, hx5, hb, hkx⟩
      omega
    · rintro ⟨hc, _⟩
      omega

/-- Helper: bit `j < 25` of the gathered slice at `z` is bit `z` of lane `j`. -/
theorem testBit_getSlice (lanes : List Nat) (z j : Nat) (hj : j < 25) :
    (getSlice lanes z).testBit j = (lanes.getD j 0).testBit z := by
  rw [getSlice, testBit_foldr_or]
  rw [Bool.eq_iff_iff]
  simp only [List.any_eq_true, List.mem_range, testBit_getSliceFromRow,
    testBit_getRow_lanes, Bool.and_eq_true, decide_eq_true_eq]
  constructor
  · rintro ⟨y, hy5, hj32, hle, hlt5, hb⟩
    have he : 5 * y + (j - 5 * y) = j := by omega
    rwa [he] at hb
  · intro hb
    refine ⟨j / 5, by omega, by omega, by omega, by omega, ?_⟩
    have he : 5 * (j / 5) + (j - 5 * (j / 5)) = j := by omega
    rwa [he]

/-- Helper: a value below `2 ^ w` is reconstructed by scattering its bits at
positions `0 .. w-1`. -/
theorem foldr_or_reconstruct (n w : Nat) (hn : n < 2 ^ w) :
    (List.range w).foldr (fun z acc => ((n.testBit z).toNat <<< z) ||| acc) 0 = n := by
  apply Nat.eq_of_testBit_eq
  intro k
  rw [testBit_foldr_or]
  simp only [testBit_toNat_shiftLeft]
  rw [Bool.eq_iff_iff]
  simp only [List.any_eq_true, List.mem_range, Bool.and_eq_true, decide_eq_true_eq]
  constructor
  · rintro ⟨z, hz, hb, hkz⟩
    subst hkz
    exact hb
  · intro hb
    by_cases hk : k < w
    · exact ⟨k, hk, hb, rfl⟩
    · exfalso
      have hf : n.testBit k = false :=
        Nat.testBit_lt_two_pow
          (lt_of_lt_of_le hn (Nat.pow_le_pow_right (by norm_num) (by omega)))
      rw [hf] at hb
      exact Bool.false_ne_true hb

/- ------------------------------------------------------------------ -/
/- Claims C3, C5, C9, C10                                             -/
/- ------------------------------------------------------------------ -/

/-- C9: for every slice value (valid or not) and every `y`, `getRowFromSlice`
returns a value strictly below 32, re-establishing the `RowValue` bit-width
invariant. -/
theorem C9_getRowFromSlice_lt_32 (slice y : Nat) : getRowFromSlice slice y < 32 := by
  have h : (slice >>> (5 * y)) &&& 0x1F ≤ 0x1F := Nat.and_le_right
  simpa [getRowFromSlice] using Nat.lt_succ_of_le h

/-- C3 counterexample: the claim that `getSliceFromRow` masks on construction
(result bits zero outside `[5y, 5y+5)` for every row byte and every
`y ∈ [0,5)`) is false at the concrete in-scope input `row = 255`, `y = 0`,
`i = 5`: the row byte is below 256, `y` is in `[0,5)`, bit position 5 lies
outside `[5*0, 5*0+5)`, and yet bit 5 of the result is set. -/
theorem C3_counterexample :
    (255 : Nat) < 256 ∧ (0 : Nat) < 5 ∧ 5 * 0 + 5 ≤ 5 ∧
      (getSliceFromRow 255 0).testBit 5 = true := by decide

/-- C3 amended: for every row byte whose bits 5 to 7 are zero (`row < 32`) and
every `y ∈ [0,5)`, `getSliceFromRow row y` has all bits zero outside
`[5y, 5y+5)`; the codec does not mask, so this relies on the `RowValue`
invariant. -/
theorem C3_amended_getSliceFromRow_bits (row y i : Nat) (hrow : row < 32)
    (hy : y < 5) (hi : i < 5 * y ∨ 5 * y + 5 ≤ i) :
    (getSliceFromRow row y).testBit i = false := by
  simp only [getSliceFromRow, Nat.testBit_mod_two_pow, Nat.testBit_shiftLeft]
  rcases hi with hlt | hge
  · have : ¬ (5 * y ≤ i) := by omega
    simp [this]
  · have hb : row.testBit (i - 5 * y) = false := by
      apply Nat.testBit_lt_two_pow
      calc row < 32 := hrow
        _ = 2 ^ 5 := by norm_num
        _ ≤ 2 ^ (i - 5 * y) := Nat.pow_le_pow_right (by norm_num) (by omega)
    simp [hb]

/-- C3 witness for the amended claim at `row = 17`, `y = 1`, `i = 0`. -/
theorem C3_witness :
    (17 : Nat) < 32 ∧ (1 : Nat) < 5 ∧ (getSliceFromRow 17 1).testBit 0 = false :=
  ⟨by decide, by decide,
    C3_amended_getSliceFromRow_bits 17 1 0 (by decide) (by decide) (Or.inl (by omega))⟩

/-- C5: for every row value with bits 5 to 7 zero and every `dx < 5`,
`translateRow row dx` equals the cyclic left rotation of the 5-bit field by
`dx`, and `translateRow row 0` returns the row unchanged through the `dx = 0`
short-circuit. -/
theorem C5_translateRow_is_rotLeft5 :
    ∀ row < 32, ∀ dx < 5,
      translateRow row dx = rotLeft5 row dx ∧ translateRow row 0 = row := by
  decide

/-- C5 witness at `row = 13`, `dx = 2`. -/
theorem C5_witness :
    translateRow 13 2 = rotLeft5 13 2 ∧ translateRow 13 0 = 13 :=
  C5_translateRow_is_rotLeft5 13 (by decide) 2 (by decide)

/-- C10: the 64-bit packed-parities container losslessly round-trips a 5-bit
parity at every slice position `z ≤ 11` (12 positions). -/
theorem C10_packedParities_roundTrip (p z : Nat) (hp : p < 32) (hz : z ≤ 11) :
    getParityFromParities (getParitiesFromParity p z) z = p := by
  unfold getParityFromParities getParitiesFromParity
  rw [Nat.shiftLeft_eq]
  have hlt : p * 2 ^ (5 * z) < 2 ^ 64 := by
    calc p * 2 ^ (5 * z) < 32 * 2 ^ (5 * z) := by
          have hpos : 0 < 2 ^ (5 * z) := Nat.pos_pow_of_pos _ (by norm_num)
          exact Nat.mul_lt_mul_of_lt_of_le hp (Nat.le_refl _) hpos
      _ = 2 ^ (5 * z + 5) := by rw [Nat.pow_add]; ring
      _ ≤ 2 ^ 64 := Nat.pow_le_pow_right (by norm_num) (by omega)
  rw [Nat.mod_eq_of_lt hlt, Nat.shiftRight_eq_div_pow,
    Nat.mul_div_cancel _ (Nat.pos_pow_of_pos _ (by norm_num))]
  have : (0x1F : Nat) = 2 ^ 5 - 1 := by norm_num
  rw [this, Nat.and_pow_two_sub_one_of_lt_two_pow (by omega)]

/-- C10 witness at `p = 31`, `z = 11`. -/
theorem C10_witness :
    getParityFromParities (getParitiesFromParity 31 11) 11 = 31 :=
  C10_packedParities_roundTrip 31 11 (by decide) (by decide)

/-- C4: the parity of a slice assembled from five explicit row values equals
the bitwise XOR of the five rows. -/
theorem C4_getParity_getSliceValue (r0 r1 r2 r3 r4 : Nat)
    (h0 : r0 < 32) (h1 : r1 < 32) (h2 : r2 < 32) (h3 : r3 < 32) (h4 : r4 < 32) :
    getParity (getSliceValue r0 r1 r2 r3 r4) = r0 ^^^ r1 ^^^ r2 ^^^ r3 ^^^ r4 := by
  have E : ∀ y, y < 5 → getRowFromSlice (getSliceValue r0 r1 r2 r3 r4) y
      = [r0, r1, r2, r3, r4].getD y 0 := by
    intro y hy
    unfold getSliceValue
    rw [getRowFromSlice_or, getRowFromSlice_or, getRowFromSlice_or, getRowFromSlice_or,
      getRowFromSlice_getSliceFromRow r0 0 y h0 (by omega) hy,
      getRowFromSlice_getSliceFromRow r1 1 y h1 (by omega) hy,
      getRowFromSlice_getSliceFromRow r2 2 y h2 (by omega) hy,
      getRowFromSlice_getSliceFromRow r3 3 y h3 (by omega) hy,
      getRowFromSlice_getSliceFromRow r4 4 y h4 (by omega) hy]
    interval_cases y <;> simp
  unfold getParity
  rw [E 0 (by omega), E 1 (by omega), E 2 (by omega), E 3 (by omega), E 4 (by omega)]
  rfl

/-- C4 witness at rows `(3, 5, 6, 0, 31)`. -/
theorem C4_witness :
    getParity (getSliceValue 3 5 6 0 31) = 3 ^^^ 5 ^^^ 6 ^^^ 0 ^^^ 31 :=
  C4_getParity_getSliceValue 3 5 6 0 31 (by decide) (by decide) (by decide) (by decide)
    (by decide)

/-- C7: `translateRowSafely` is periodic in `dx` with period 5, for every row
value and every integer `dx`, including negative values. -/
theorem C7_translateRowSafely_periodic (row : Nat) (dx : Int) :
    translateRowSafely row dx = translateRowSafely row (dx + 5) := by
  unfold translateRowSafely
  have h : (dx + 5) % 5 = dx % 5 := by omega
  rw [h]

/-- C8: the active-row count of a slice equals the number of `y ∈ [0,5)` whose
extracted row is non-zero. -/
theorem C8_getNrActiveRows (slice : Nat) (hs : slice < 2 ^ 32) :
    getNrActiveRows slice =
      ((Finset.range 5).filter (fun y => getRowFromSlice slice y ≠ 0)).card := by
  have hr : (List.range 5) = [0, 1, 2, 3, 4] := rfl
  rw [getNrActiveRows, hr]
  simp only [List.foldl]
  rw [Finset.card_filter, Finset.sum_range_succ, Finset.sum_range_succ,
    Finset.sum_range_succ, Finset.sum_range_succ, Finset.sum_range_succ,
    Finset.sum_range_zero]
  split_ifs <;> omega

/-- C8 witness at `slice = 33`, which has active rows at `y = 0` and `y = 1`. -/
theorem C8_witness :
    getNrActiveRows 33 =
      ((Finset.range 5).filter (fun y => getRowFromSlice 33 y ≠ 0)).card :=
  C8_getNrActiveRows 33 (by norm_num)

/-- C6: translating a state along `z` by any signed `dz` and then by `-dz`
returns the original state. -/
theorem C6_translateStateAlongZ_inverse (S : List Nat) (dz : Int) :
    translateStateAlongZ (translateStateAlongZ S dz) (-dz) = S := by
  unfold translateStateAlongZ
  apply List.ext_getElem
  · simp
  · intro i h1 h2
    have hw : 0 < S.length := by
      simp only [List.length_map, List.length_range] at h1
      omega
    have hwpos : (0 : Int) < (S.length : Int) := by
      exact_mod_cast hw
    have hwz : (S.length : Int) ≠ 0 := by omega
    simp only [List.getElem_map, List.getElem_range, List.length_map, List.length_range]
    have hi : i < S.length := h2
    set w : Int := (S.length : Int) with hwdef
    have ha0 : 0 ≤ ((i : Int) - -dz) % w := Int.emod_nonneg _ hwz
    have ha1 : ((i : Int) - -dz) % w < w := Int.emod_lt_of_pos _ hwpos
    have haw : (((i : Int) - -dz) % w).toNat < S.length := by
      rw [Int.toNat_lt ha0]
      exact ha1
    rw [List.getD_eq_getElem _ _ (by simpa using haw)]
    simp only [List.getElem_map, List.getElem_range]
    have hback : ((((((i : Int) - -dz) % w).toNat : Int)) - dz) % w = (i : Int) := by
      rw [Int.toNat_of_nonneg ha0]
      have step : (((i : Int) - -dz) % w - dz) % w = (((i : Int) - -dz) - dz) % w := by
        conv_lhs => rw [Int.sub_emod]
        rw [Int.emod_emod, ← Int.sub_emod]
      rw [step]
      have : ((i : Int) - -dz) - dz = (i : Int) := by ring
      rw [this]
      exact Int.emod_eq_of_lt (by omega) (by omega)
    rw [hback]
    simp [List.getElem?_eq_getElem hi]

/-- C1: converting a lane state of length 25 whose lanes have width `w` to
slices and back reproduces the lane state exactly. -/
theorem C1_fromLanesToSlices_roundTrip (lanes : List Nat) (w : Nat)
    (hlen : lanes.length = 25) (hw : ∀ u ∈ lanes, u < 2 ^ w) :
    fromSlicesToLanes (fromLanesToSlices lanes w) = lanes := by
  apply List.ext_getElem
  · simp [fromSlicesToLanes, hlen]
  · intro j h1 h2
    have hj : j < 25 := by omega
    unfold fromSlicesToLanes
    simp only [List.getElem_map, List.getElem_range]
    have hslen : (fromLanesToSlices lanes w).length = w := by
      simp [fromLanesToSlices]
    rw [hslen]
    have hmem : lanes[j] ∈ lanes := List.getElem_mem h2
    have hub : lanes[j] < 2 ^ w := hw _ hmem
    have hgd : lanes.getD j 0 = lanes[j] := List.getD_eq_getElem _ _ h2
    apply Nat.eq_of_testBit_eq
    intro k
    rw [testBit_foldr_or]
    simp only [testBit_toNat_shiftLeft]
    rw [Bool.eq_iff_iff]
    simp only [List.any_eq_true, List.mem_range, Bool.and_eq_true, decide_eq_true_eq]
    constructor
    · rintro ⟨z, hz, hb, hkz⟩
      subst hkz
      rw [show (fromLanesToSlices lanes w).getD k 0 = getSlice lanes k by
            unfold fromLanesToSlices; exact getD_map_range _ _ _ hz] at hb
      rw [testBit_getRowFromSlice] at hb
      simp only [Bool.and_eq_true, decide_eq_true_eq] at hb
      obtain ⟨_, hb⟩ := hb
      have he : 5 * (j / 5) + j % 5 = j := by omega
      rw [he, testBit_getSlice lanes k j hj, hgd] at hb
      exact hb
    · intro hb
      by_cases hk : k < w
      · refine ⟨k, hk, ?_, rfl⟩
        rw [show (fromLanesToSlices lanes w).getD k 0 = getSlice lanes k by
              unfold fromLanesToSlices; exact getD_map_range _ _ _ hk]
        rw [testBit_getRowFromSlice]
        simp only [Bool.and_eq_true, decide_eq_true_eq]
        refine ⟨by omega, ?_⟩
        have he : 5 * (j / 5) + j % 5 = j := by omega
        rw [he, testBit_getSlice lanes k j hj, hgd]
        exact hb
      · exfalso
        have hf : lanes[j].testBit k = false :=
          Nat.testBit_lt_two_pow
            (lt_of_lt_of_le hub (Nat.pow_le_pow_right (by norm_num) (by omega)))
        rw [hf] at hb
        exact Bool.false_ne_true hb

/-- C1 witness: a concrete lane state of 25 lanes of width 4. -/
theorem C1_witness :
    fromSlicesToLanes (fromLanesToSlices (List.replicate 25 9) 4) = List.replicate 25 9 :=
  C1_fromLanesToSlices_roundTrip (List.replicate 25 9) 4 (by decide)
    (by
      intro u hu
      rw [List.eq_of_mem_replicate hu]
      decide)

/-- C2 counterexample: in the slice-based encoding, writing the row byte 255
(bits 5 to 7 set) at `(y,z) = (0,0)` corrupts the row at `(1,0)`, because the
embedding does not mask: the claim that no other `(y1,z1)` row changes fails. -/
theorem C2_counterexample :
    getRow_slices (setRow_slices [0] 255 0 0) 1 0 ≠ getRow_slices [0] 1 0 := by decide

/-- C2 amended: write/read consistency for `setRow`/`getRow`.  In both
encodings, reading back at the written `(y,z)` yields the row masked to its 5
meaningful bits.  The frame property (no other `(y1,z1)` row changes) holds
in the lane-based encoding for every row byte, but in the slice-based
encoding only for row values whose bits 5 to 7 are zero (`row < 32`). -/
theorem C2_amended_setRow_getRow :
    (∀ (S : List Nat) (row y z : Nat), y < 5 → z < S.length →
        (getRow_slices (setRow_slices S row y z) y z = row &&& 0x1F ∧
          (row < 32 → ∀ y1 z1, y1 < 5 → (y1, z1) ≠ (y, z) →
            getRow_slices (setRow_slices S row y z) y1 z1 = getRow_slices S y1 z1))) ∧
    (∀ (L : List Nat) (row y z : Nat), L.length = 25 → y < 5 →
        (getRow_lanes (setRow_lanes L row y z) y z = row &&& 0x1F ∧
          ∀ y1 z1, y1 < 5 → (y1, z1) ≠ (y, z) →
            getRow_lanes (setRow_lanes L row y z) y1 z1 = getRow_lanes L y1 z1)) := by
  constructor
  · intro S row y z hy hz
    constructor
    · unfold getRow_slices setRow_slices
      rw [getD_set_self _ _ _ hz]
      apply Nat.eq_of_testBit_eq
      intro k
      rw [testBit_getRowFromSlice, testBit_and_31]
      by_cases hk : k < 5
      · have c1 : 5 * y + k < 32 := by omega
        have c2 : 5 * y ≤ 5 * y + k := by omega
        have c3 : 5 * y + k - 5 * y = k := by omega
        simp only [Nat.testBit_or, Nat.testBit_and, Nat.testBit_xor, testBit_mask32,
          testBit_getSliceFromRow, testBit_31, c3]
        simp [hk, c1, c2]
      · simp [hk]
    · intro hrow y1 z1 hy1 hne
      by_cases hzz : z1 = z
      · subst hzz
        have hyy : y1 ≠ y := by
          intro he
          exact hne (by rw [he])
        unfold getRow_slices setRow_slices
        rw [getD_set_self _ _ _ hz]
        apply Nat.eq_of_testBit_eq
        intro k
        rw [testBit_getRowFromSlice, testBit_getRowFromSlice]
        by_cases hk : k < 5
        · have c1 : 5 * y1 + k < 32 := by omega
          simp only [Nat.testBit_or, Nat.testBit_and, Nat.testBit_xor, testBit_mask32,
            testBit_getSliceFromRow, testBit_31]
          rcases Nat.lt_or_ge y1 y with hlt | hge
          · have hno : ¬ (5 * y ≤ 5 * y1 + k) := by omega
            simp [hk, c1, hno]
          · have hgt : y < y1 := by omega
            have h5 : 5 ≤ 5 * y1 + k - 5 * y := by omega
            have hn5 : ¬ (5 * y1 + k - 5 * y < 5) := by omega
            simp [hk, c1, hn5, testBit_of_lt_32 row _ hrow h5]
        · simp [hk]
      · unfold getRow_slices setRow_slices
        rw [getD_set_ne _ _ _ _ (fun he => hzz he.symm)]
  · intro L row y z hL hy
    have hgetd : ∀ j, j < 25 → (setRow_lanes L row y z).getD j 0 =
        (if j / 5 = y then setBitTo (L.getD j 0) z (row.testBit (j % 5))
         else L.getD j 0) := by
      intro j hj
      unfold setRow_lanes
      rw [hL]
      exact getD_map_range _ _ _ (by omega)
    constructor
    · apply Nat.eq_of_testBit_eq
      intro k
      rw [testBit_getRow_lanes, testBit_and_31]
      by_cases hk : k < 5
      · have hj : 5 * y + k < 25 := by omega
        rw [hgetd _ hj]
        have hdiv : (5 * y + k) / 5 = y := by omega
        have hmod : (5 * y + k) % 5 = k := by omega
        rw [if_pos hdiv, hmod, testBit_setBitTo]
        simp [hk]
      · simp [hk]
    · intro y1 z1 hy1 hne
      apply Nat.eq_of_testBit_eq
      intro k
      rw [testBit_getRow_lanes, testBit_getRow_lanes]
      by_cases hk : k < 5
      · have hj : 5 * y1 + k < 25 := by omega
        rw [hgetd _ hj]
        by_cases hyy : y1 = y
        · have hzz : z1 ≠ z := by
            intro he
            exact hne (by rw [hyy, he])
          have hdiv : (5 * y1 + k) / 5 = y := by omega
          rw [if_pos hdiv, testBit_setBitTo, if_neg hzz]
        · have hdiv : ¬ ((5 * y1 + k) / 5 = y) := by omega
          rw [if_neg hdiv]
      · simp [hk]

/-- C2 witness for the amended claim: both encodings at row 21, `(y,z) = (1,0)`. -/
theorem C2_witness :
    getRow_slices (setRow_slices [0, 0] 21 1 0) 1 0 = 21 &&& 0x1F ∧
      getRow_lanes (setRow_lanes (List.replicate 25 0) 21 1 0) 1 0 = 21 &&& 0x1F :=
  ⟨(C2_amended_setRow_getRow.1 [0, 0] 21 1 0 (by decide) (by decide)).1,
    (C2_amended_setRow_getRow.2 (List.replicate 25 0) 21 1 0 (by decide) (by decide)).1⟩

end KeccakFParts
